import Mathlib

set_option maxRecDepth 10000

namespace NameBlocker

/-! Shallow embedding of the name-blocker content script (src/Content.js).

Text is modelled as List Char.  The compiled matcher of the source,
`new RegExp("\\b(?:" + nameList.join("|") + ")\\b", "gi")`, is embedded for
dictionaries whose entries are literal strings (no regex metacharacters):
at each position the engine checks the leading word-boundary assertion,
tries the alternatives in dictionary order, and accepts the first whose
literal characters match case-insensitively and whose trailing
word-boundary assertion holds; the g flag makes the scan resume at the end
of each match, or one position further on failure or an empty match. -/

/-- ASCII word character: the JS regex class \w = [A-Za-z0-9_]
(the source regex is built without the u flag). -/
def isWordChar (c : Char) : Bool :=
  decide (('a' ≤ c ∧ c ≤ 'z') ∨ ('A' ≤ c ∧ c ≤ 'Z') ∨ ('0' ≤ c ∧ c ≤ '9') ∨ c = '_')

/-- ASCII letter. -/
def isAsciiAlpha (c : Char) : Bool :=
  decide (('a' ≤ c ∧ c ≤ 'z') ∨ ('A' ≤ c ∧ c ≤ 'Z'))

/-- Case-insensitive character comparison as performed by the regex i flag
on ASCII characters: equal, or both ASCII letters differing only in case. -/
def ciEqChar (a b : Char) : Bool :=
  a == b || (isAsciiAlpha a && isAsciiAlpha b &&
    (a.toNat + 32 == b.toNat || b.toNat + 32 == a.toNat))

/-- Pointwise case-insensitive equality of two character lists
(also forces equal lengths). -/
def ciEqList : List Char → List Char → Bool
  | [], [] => true
  | a :: as, b :: bs => ciEqChar a b && ciEqList as bs
  | _, _ => false

/-- Is the character at index i of t a word character
(out-of-range counts as a non-word position, as at the ends of a string)? -/
def wordAt (t : List Char) (i : Nat) : Bool :=
  match t.get? i with
  | some c => isWordChar c
  | none => false

/-- The JS \b assertion at position i of t: the word-character status of the
characters on the two sides of the position differs (positions outside the
string count as non-word). -/
def boundaryAt (t : List Char) (i : Nat) : Bool :=
  (if i = 0 then false else wordAt t (i - 1)) != wordAt t i

/-- The literal entry e matches t at position i, case-insensitively
(the i flag of the source regex). -/
def ciMatchesAt (e t : List Char) (i : Nat) : Bool :=
  ciEqList e ((t.drop i).take e.length)

/-- A full match of the source pattern \b(?:...|e|...)\b with the
alternative e at position i of t. -/
def entryOccursAt (e t : List Char) (i : Nat) : Bool :=
  ciMatchesAt e t i && boundaryAt t i && boundaryAt t (i + e.length)

/-- Specification-side notion (from the spec wording, for the refinement
claim about the matcher): an occurrence of e at position i of t as a whole
word anchored by non-word-character boundaries, case-insensitively: the
characters adjacent to the occurrence, when they exist, are non-word. -/
def wholeWordOccursAt (e t : List Char) (i : Nat) : Bool :=
  ciMatchesAt e t i &&
  (decide (i = 0) || !wordAt t (i - 1)) &&
  (decide (i + e.length = t.length) || !wordAt t (i + e.length))

/-- One attempt of the compiled matcher at position i: the alternatives are
tried in dictionary order; the first alternative that matches literally and
satisfies both boundary assertions yields the match, whose length is
returned (backtracking over the alternation of the source regex). -/
def matchLenAt (D : List (List Char)) (t : List Char) (i : Nat) : Option Nat :=
  D.findSome? fun e => if entryOccursAt e t i then some e.length else none

/-- The global (g flag) scan of the compiled matcher: matches are collected
left to right as (position, length) pairs; after a match the scan resumes at
its end (one position further for an empty match, as JS does for
zero-length matches).  The fuel argument only bounds the recursion; with
fuel at least t.length + 1 - i it is never exhausted. -/
def scanFrom (D : List (List Char)) (t : List Char) : Nat → Nat → List (Nat × Nat)
  | _, 0 => []
  | i, fuel + 1 =>
    if t.length < i then []
    else
      match matchLenAt D t i with
      | some 0 => (i, 0) :: scanFrom D t (i + 1) fuel
      | some (L + 1) => (i, L + 1) :: scanFrom D t (i + L + 1) fuel
      | none => scanFrom D t (i + 1) fuel

/-- All matches of the compiled matcher on t, as (position, length) pairs,
in left-to-right order (the behaviour of matchAll / replace on the source
regex with its g flag). -/
def findMatches (D : List (List Char)) (t : List Char) : List (Nat × Nat) :=
  scanFrom D t 0 (t.length + 1)

/-- Rebuild a string from its match list: the text between matches is
copied verbatim and each matched substring is passed through wrap.
pos is the index up to which output has been emitted. -/
def stitch (t : List Char) (wrap : List Char → List Char) : Nat → List (Nat × Nat) → List Char
  | pos, [] => t.drop pos
  | pos, (i, L) :: ms =>
    (t.drop pos).take (i - pos) ++ wrap ((t.drop i).take L) ++ stitch t wrap (i + L) ms

/-- The source's originalText.replace(nameRegex, match => wrapFn(match)):
every match of the compiled matcher is replaced by wrap applied to the
matched substring, the rest of the text is copied unchanged. -/
def replaceMatches (D : List (List Char)) (t : List Char)
    (wrap : List Char → List Char) : List Char :=
  stitch t wrap 0 (findMatches D t)

/-- The non-matched portions of a text for a match list: the segments
between consecutive matches, before the first match and after the last
one — the parts that replaceMatches copies verbatim outside the wrap. -/
def gapsOf (t : List Char) : Nat → List (Nat × Nat) → List (List Char)
  | pos, [] => [t.drop pos]
  | pos, (i, L) :: ms => (t.drop pos).take (i - pos) :: gapsOf t (i + L) ms

/-- JS whitespace for the purposes of the source's \s and trim
(ASCII part: space, tab, line feed, carriage return, vertical tab,
form feed). -/
def jsIsSpace (c : Char) : Bool :=
  c == ' ' || c == '\t' || c == '\n' || c == '\r' || c == '\x0b' || c == '\x0c'

/-- Splitting on the source's /\r?\n/ separator: each line feed, optionally
preceded by a carriage return, ends a line. acc holds the reversed current
line. -/
def splitLinesAux : List Char → List Char → List (List Char)
  | acc, [] => [acc.reverse]
  | acc, '\r' :: '\n' :: rest => acc.reverse :: splitLinesAux [] rest
  | acc, '\n' :: rest => acc.reverse :: splitLinesAux [] rest
  | acc, c :: rest => splitLinesAux (c :: acc) rest

def splitLines (s : List Char) : List (List Char) := splitLinesAux [] s

/-- The JS String.prototype.trim: strip whitespace from both ends. -/
def jsTrim (s : List Char) : List Char :=
  ((s.dropWhile jsIsSpace).reverse.dropWhile jsIsSpace).reverse

/-- The name-list parsing of initialize (source line 110):
text.split(line separator).filter(Boolean).map(n trimmed) — note the
filter for empty strings runs before the trim. -/
def loadNames (text : List Char) : List (List Char) :=
  ((splitLines text).filter (fun l => !l.isEmpty)).map jsTrim

/-- The marker class of spoiler elements (source line 69). -/
def SPOILER_CLASS : String := "gemini-spoiler-censor"

def spanOpenChars : List Char := "<span class=\"".data ++ SPOILER_CLASS.data ++ "\">".data

def spanCloseChars : List Char := "</span>".data

/-- The replacement callback of censorNames (source line 176): wrap the
matched substring in a spoiler span tag. -/
def wrapSpan (m : List Char) : List Char := spanOpenChars ++ m ++ spanCloseChars

/-- The replacementHTML string built by censorNames (source lines 174-177). -/
def replacementHTML (D : List (List Char)) (t : List Char) : List Char :=
  replaceMatches D t wrapSpan

/-- DOM node model: a text node with its contents, or an element with its
tag name (kept lowercase, as nodeName is lowercased by the filter), its
class list, and its children. -/
inductive DNode where
  | text : List Char → DNode
  | elem : String → List String → List DNode → DNode

/-- HTML character-reference decoding applied by the parser to text runs:
the named references for ampersand, less-than and greater-than are decoded;
an ampersand not starting one of these references stays literal. -/
def decodeEntities : List Char → List Char
  | [] => []
  | '&' :: 'a' :: 'm' :: 'p' :: ';' :: rest => '&' :: decodeEntities rest
  | '&' :: 'l' :: 't' :: ';' :: rest => '<' :: decodeEntities rest
  | '&' :: 'g' :: 't' :: ';' :: rest => '>' :: decodeEntities rest
  | c :: rest => c :: decodeEntities rest

/-- Scan up to the spoiler span's closing tag: returns the raw content
before the tag and the input after it. -/
def takeUntilClose : List Char → List Char × List Char
  | [] => ([], [])
  | c :: cs =>
    if spanCloseChars.isPrefixOf (c :: cs) then ([], (c :: cs).drop spanCloseChars.length)
    else
      let p := takeUntilClose cs
      (c :: p.1, p.2)

def parseFragAux : Nat → List Char → List Char → List DNode
  | _, acc, [] => if acc.isEmpty then [] else [DNode.text (decodeEntities acc.reverse)]
  | 0, acc, rest => [DNode.text (decodeEntities (acc.reverse ++ rest))]
  | fuel + 1, acc, c :: cs =>
    if spanOpenChars.isPrefixOf (c :: cs) then
      let afterOpen := (c :: cs).drop spanOpenChars.length
      let p := takeUntilClose afterOpen
      (if acc.isEmpty then [] else [DNode.text (decodeEntities acc.reverse)]) ++
        DNode.elem "span" [SPOILER_CLASS]
          (if p.1.isEmpty then [] else [DNode.text (decodeEntities p.1)]) ::
        parseFragAux fuel [] p.2
    else
      parseFragAux fuel (c :: acc) cs

/-- Models the browser's parsing of the innerHTML fragment that censorNames
assigns to its temporary div (source lines 180-181), for the markup shapes
that function produces: runs of text with HTML character references
decoded, and the spoiler span open/close tags producing span elements.
Markup outside these shapes (for example a less-than sign followed by a
letter, which would open a foreign element) is kept as literal text and is
outside the model. Adjacent text is merged into a single text node and
empty text runs produce no node, as innerHTML parsing does. -/
def parseFragment (s : List Char) : List DNode := parseFragAux s.length [] s

/-- The parent tags whose text children the filter rejects
(source lines 149-152). -/
def blockedParents : List String := ["script", "style", "textarea", "input"]

/-- The acceptNode eligibility filter of censorNames (source lines
146-164): a text node is accepted unless its parent is one of the blocked
elements, the parent carries the spoiler marker class, the text has no
non-whitespace character, or the matcher finds no match in it. -/
def eligible (ptag : String) (pcls : List String) (D : List (List Char)) (s : List Char) : Bool :=
  !(blockedParents.contains ptag || pcls.contains SPOILER_CLASS ||
    s.all jsIsSpace || (findMatches D s).isEmpty)

mutual

/-- One censorNames step on a single node, given the parent element's tag
and class list: an eligible text node is replaced by the fragment parsed
from its replacement markup; an element is processed by descending into its
children.  Returns none when nothing was replaced. -/
def censorNode (D : List (List Char)) (ptag : String) (pcls : List String) :
    DNode → Option (List DNode)
  | DNode.text s =>
    if eligible ptag pcls D s then some (parseFragment (replacementHTML D s)) else none
  | DNode.elem tag cls ch =>
    (censorForest D tag cls ch).map (fun ch' => [DNode.elem tag cls ch'])

/-- One censorNames pass over a forest of sibling nodes.  The source
iterates a TreeWalker and splices the replacement in the loop body: the
accepted text node is removed from the document, and the following
walker.nextNode() call climbs from the detached node, finds neither sibling
nor parent and returns null, ending the loop.  A single pass therefore
replaces at most the first eligible text node in document order.  Returns
none when no node was replaced, some with the updated forest otherwise. -/
def censorForest (D : List (List Char)) (ptag : String) (pcls : List String) :
    List DNode → Option (List DNode)
  | [] => none
  | n :: ns =>
    match censorNode D ptag pcls n with
    | some repl => some (repl ++ ns)
    | none => (censorForest D ptag pcls ns).map (fun ns' => n :: ns')

end

/-- The walking-and-replacing part of censorNames applied to the body
element (the TreeWalker root, whose own node is not filtered). -/
def censorPass (D : List (List Char)) : DNode → DNode
  | DNode.elem tag cls ch =>
    match censorForest D tag cls ch with
    | some ch' => DNode.elem tag cls ch'
    | none => DNode.elem tag cls ch
  | n => n

/-- The censorNames entry point (source lines 136-139): returns immediately
when the extension is disabled or the matcher has not been built. -/
def censorNames (isEnabled : Bool) (nameRegex : Option (List (List Char))) (body : DNode) :
    DNode :=
  if !isEnabled || nameRegex.isNone then body
  else censorPass (nameRegex.getD []) body

/-- The matcher produced by initialize (source lines 102-127): a failed
fetch leaves it unset (the catch handler only logs), an empty parsed name
list returns early leaving it unset, otherwise the regex is built from the
parsed list. -/
def initializeRegex (fetched : Option (List Char)) : Option (List (List Char)) :=
  match fetched with
  | none => none
  | some text =>
    let nameList := loadNames text
    if nameList.isEmpty then none else some nameList

mutual

def textNodes : DNode → List (List Char)
  | DNode.text s => [s]
  | DNode.elem _ _ ch => textNodesList ch

def textNodesList : List DNode → List (List Char)
  | [] => []
  | n :: ns => textNodes n ++ textNodesList ns

end

mutual

def spoilerCount : DNode → Nat
  | DNode.text _ => 0
  | DNode.elem _ cls ch => (if cls.contains SPOILER_CLASS then 1 else 0) + spoilerCountList ch

def spoilerCountList : List DNode → Nat
  | [] => 0
  | n :: ns => spoilerCount n + spoilerCountList ns

end

/-- Number of node replacements performed by one censorNames pass on the
given body (the TreeWalker semantics make this 0 or 1). -/
def replacementsMade (D : List (List Char)) : DNode → Nat
  | DNode.elem tag cls ch => if (censorForest D tag cls ch).isSome then 1 else 0
  | _ => 0

inductive Action where
  | censor : Action
  | reload : Action
deriving DecidableEq

/-- The chrome.storage.onChanged listener (source lines 219-229): when the
notification carries the enabled key, the flag is set to the new value; the
enabled branch runs one censorNames call, the disabled branch requests one
location.reload(). -/
def onStorageChanged (isEnabled : Bool) (changedEnabled : Option Bool) : Bool × List Action :=
  match changedEnabled with
  | none => (isEnabled, [])
  | some v => if v then (v, [Action.censor]) else (v, [Action.reload])

/-- One trigger of the debounced function (source lines 82-88) arriving at
absolute time t: a pending timer that was already due fires first
(its firing time is emitted); clearTimeout cancels a still-pending timer;
setTimeout then schedules the call at t + timeout. -/
def debounceStep (timeout : Nat) (pending : Option Nat) (t : Nat) : Option Nat × List Nat :=
  match pending with
  | some s => if s ≤ t then (some (t + timeout), [s]) else (some (t + timeout), [])
  | none => (some (t + timeout), [])

def debounceRunAux (timeout : Nat) : Option Nat → List Nat → List Nat
  | pending, [] => pending.toList
  | pending, t :: ts =>
    let p := debounceStep timeout pending t
    p.2 ++ debounceRunAux timeout p.1 ts

/-- The firing times of the debounced censorNames, given the nondecreasing
arrival times of the mutation notifications; the timer still pending after
the last notification fires at its scheduled time. -/
def debounceRun (timeout : Nat) (triggers : List Nat) : List Nat :=
  debounceRunAux timeout none triggers

/-- The observer bookkeeping: how many MutationObserver registrations on
document.body are live, and what window.geminiCensorObserver refers to. -/
structure ObsState where
  active : Nat
  handle : Option Nat
  nextId : Nat
deriving DecidableEq

/-- observeDOMChanges (source lines 199-213): a fresh MutationObserver is
created and registered on document.body (the registration stays live: the
source never calls disconnect on the previous one), and the
window.geminiCensorObserver handle is overwritten with the new observer. -/
def observeDOMChanges (st : ObsState) : ObsState :=
  { active := st.active + 1, handle := some st.nextId, nextId := st.nextId + 1 }

def initialObsState : ObsState := { active := 0, handle := none, nextId := 0 }

/-- The observer registrations made by one run of the content script: the
top-level initialize() call runs once, and observeDOMChanges is reached
only on the fetch success path after a non-empty name list built the
matcher. -/
def initObservers (fetched : Option (List Char)) : ObsState :=
  match initializeRegex fetched with
  | none => initialObsState
  | some _ => observeDOMChanges initialObsState

theorem take_sub_append_drop {t : List Char} {pos i : Nat} (h : pos ≤ i) :
    (t.drop pos).take (i - pos) ++ t.drop i = t.drop pos := by
  have hd : t.drop i = (t.drop pos).drop (i - pos) := by
    rw [List.drop_drop]; congr 1; omega
  rw [hd, List.take_append_drop]

theorem stitch_scan_id (D : List (List Char)) (t : List Char) :
    ∀ (fuel i pos : Nat), pos ≤ i →
      stitch t (fun m => m) pos (scanFrom D t i fuel) = t.drop pos := by
  intro fuel
  induction fuel with
  | zero => intro i pos _; simp [scanFrom, stitch]
  | succ fuel ih =>
    intro i pos hpos
    rw [scanFrom]
    split
    · simp [stitch]
    · cases hm : matchLenAt D t i with
      | none => exact ih (i + 1) pos (le_trans hpos (Nat.le_succ i))
      | some L =>
        cases L with
        | zero =>
          rw [stitch]
          have h1 : stitch t (fun m => m) (i + 0) (scanFrom D t (i + 1) fuel) = t.drop (i + 0) :=
            ih (i + 1) (i + 0) (Nat.le_succ i)
          rw [h1]
          simp only [List.take_zero, List.append_nil, Nat.add_zero]
          exact take_sub_append_drop hpos
        | succ L =>
          rw [stitch]
          have h1 : stitch t (fun m => m) (i + (L + 1)) (scanFrom D t (i + L + 1) fuel)
              = t.drop (i + (L + 1)) := ih (i + L + 1) (i + (L + 1)) (by omega)
          rw [h1]
          have h2 : (t.drop i).take (L + 1) ++ t.drop (i + (L + 1)) = t.drop i := by
            have hd : t.drop (i + (L + 1)) = (t.drop i).drop (L + 1) := by
              rw [List.drop_drop]
            rw [hd, List.take_append_drop]
          rw [List.append_assoc, h2]
          exact take_sub_append_drop hpos

/-- C4: for every text t and every dictionary D, the match-replacement
operation applied with a wrap function that returns its argument unchanged
yields exactly the original text. -/
theorem replaceMatches_id_roundtrip (D : List (List Char)) (t : List Char) :
    replaceMatches D t (fun m => m) = t := by
  unfold replaceMatches findMatches
  rw [stitch_scan_id D t (t.length + 1) 0 0 (Nat.le_refl 0), List.drop_zero]

theorem isWordChar_of_isAsciiAlpha {c : Char} (h : isAsciiAlpha c = true) :
    isWordChar c = true := by
  unfold isAsciiAlpha at h
  unfold isWordChar
  simp only [decide_eq_true_eq] at *
  tauto

theorem ciEqChar_isWordChar {a b : Char} (h : ciEqChar a b = true) :
    isWordChar a = isWordChar b := by
  unfold ciEqChar at h
  simp only [Bool.or_eq_true, Bool.and_eq_true, beq_iff_eq] at h
  rcases h with h | ⟨⟨ha, hb⟩, _⟩
  · rw [h]
  · rw [isWordChar_of_isAsciiAlpha ha, isWordChar_of_isAsciiAlpha hb]

theorem ciEqList_iff_forall₂ : ∀ {a b : List Char},
    ciEqList a b = true ↔ List.Forall₂ (fun x y => ciEqChar x y = true) a b := by
  intro a
  induction a with
  | nil => intro b; cases b <;> simp [ciEqList]
  | cons x xs ih =>
    intro b
    cases b with
    | nil => simp [ciEqList]
    | cons y ys => simp [ciEqList, List.forall₂_cons, Bool.and_eq_true, ih]

theorem segment_word {e s : List Char} (he : ∀ c ∈ e, isWordChar c = true)
    (h : List.Forall₂ (fun x y => ciEqChar x y = true) e s) :
    ∀ c ∈ s, isWordChar c = true := by
  induction h with
  | nil => simp
  | cons hxy htail ih =>
    intro c hc
    rcases List.mem_cons.mp hc with rfl | hc
    · rw [← ciEqChar_isWordChar hxy]; exact he _ (List.mem_cons_self _ _)
    · exact ih (fun d hd => he d (List.mem_cons_of_mem _ hd)) c hc

theorem ciMatchesAt_le {e t : List Char} {i : Nat} (h : ciMatchesAt e t i = true) :
    e.length ≤ t.length - i := by
  unfold ciMatchesAt at h
  have hl := (ciEqList_iff_forall₂.mp h).length_eq
  rw [List.length_take, List.length_drop] at hl
  rw [hl]
  exact Nat.min_le_right _ _

theorem wordAt_of_ciMatch {e t : List Char} {i : Nat}
    (he : ∀ c ∈ e, isWordChar c = true)
    (h : ciMatchesAt e t i = true) {k : Nat} (hk : k < e.length) :
    wordAt t (i + k) = true := by
  have hseg := segment_word he (ciEqList_iff_forall₂.mp h)
  have hle : e.length ≤ t.length - i := ciMatchesAt_le h
  have hj : i + k < t.length := by omega
  have hlen : k < ((t.drop i).take e.length).length := by
    rw [List.length_take, List.length_drop]; omega
  have hmem : t[i + k] ∈ (t.drop i).take e.length := by
    have hg : ((t.drop i).take e.length)[k] = t[i + k] := by
      rw [List.getElem_take, List.getElem_drop]
    rw [← hg]
    exact List.getElem_mem hlen
  have hw := hseg _ hmem
  unfold wordAt
  rw [List.get?_eq_getElem?, List.getElem?_eq_getElem hj]
  exact hw

theorem wordAt_eq_false {t : List Char} {j : Nat} (h : t.length ≤ j) :
    wordAt t j = false := by
  unfold wordAt
  rw [List.get?_eq_getElem?, List.getElem?_eq_none h]

theorem entryOccursAt_parts {e t : List Char} {i : Nat}
    (h : entryOccursAt e t i = true) :
    ciMatchesAt e t i = true ∧ boundaryAt t i = true ∧ boundaryAt t (i + e.length) = true := by
  unfold entryOccursAt at h
  simp only [Bool.and_eq_true] at h
  exact ⟨h.1.1, h.1.2, h.2⟩

theorem occ_after_not_word {e t : List Char} {i : Nat}
    (hne : e ≠ []) (he : ∀ c ∈ e, isWordChar c = true)
    (h : entryOccursAt e t i = true) : wordAt t (i + e.length) = false := by
  obtain ⟨hm, _, hb2⟩ := entryOccursAt_parts h
  have hlen : 0 < e.length := List.length_pos.mpr hne
  have hlast : wordAt t (i + (e.length - 1)) = true := wordAt_of_ciMatch he hm (by omega)
  unfold boundaryAt at hb2
  rw [if_neg (by omega : ¬ i + e.length = 0)] at hb2
  have h2 : i + e.length - 1 = i + (e.length - 1) := by omega
  rw [h2, hlast] at hb2
  cases hw : wordAt t (i + e.length)
  · rfl
  · rw [hw] at hb2; simp at hb2

theorem entryOccurs_eq_wholeWord {e t : List Char} {i : Nat}
    (hne : e ≠ []) (he : ∀ c ∈ e, isWordChar c = true) :
    entryOccursAt e t i = wholeWordOccursAt e t i := by
  unfold entryOccursAt wholeWordOccursAt
  cases hm : ciMatchesAt e t i with
  | false => simp
  | true =>
    have hlen : 0 < e.length := List.length_pos.mpr hne
    have hfirst : wordAt t i = true := by
      have := wordAt_of_ciMatch he hm hlen
      rwa [Nat.add_zero] at this
    have hlast : wordAt t (i + (e.length - 1)) = true := wordAt_of_ciMatch he hm (by omega)
    have hle := ciMatchesAt_le hm
    simp only [Bool.true_and]
    congr 1
    · unfold boundaryAt
      rw [hfirst]
      by_cases h0 : i = 0
      · subst h0; simp
      · simp [h0]
    · unfold boundaryAt
      rw [if_neg (by omega : ¬ i + e.length = 0)]
      have h2 : i + e.length - 1 = i + (e.length - 1) := by omega
      rw [h2, hlast]
      by_cases hend : i + e.length = t.length
      · have hw : wordAt t (i + e.length) = false := wordAt_eq_false (by omega)
        rw [hw]
        simp [hend]
      · simp [hend]

theorem occ_length_unique {e e' t : List Char} {i : Nat}
    (hne : e ≠ []) (he : ∀ c ∈ e, isWordChar c = true)
    (hne' : e' ≠ []) (he' : ∀ c ∈ e', isWordChar c = true)
    (h : entryOccursAt e t i = true) (h' : entryOccursAt e' t i = true) :
    e.length = e'.length := by
  rcases Nat.lt_trichotomy e.length e'.length with hlt | heq | hgt
  · exfalso
    have hf : wordAt t (i + e.length) = false := occ_after_not_word hne he h
    have ht : wordAt t (i + e.length) = true :=
      wordAt_of_ciMatch he' (entryOccursAt_parts h').1 hlt
    rw [hf] at ht; exact Bool.false_ne_true ht
  · exact heq
  · exfalso
    have hf : wordAt t (i + e'.length) = false := occ_after_not_word hne' he' h'
    have ht : wordAt t (i + e'.length) = true :=
      wordAt_of_ciMatch he (entryOccursAt_parts h).1 hgt
    rw [hf] at ht; exact Bool.false_ne_true ht

theorem no_occ_inside {e t : List Char} {i j : Nat}
    (_hne : e ≠ []) (he : ∀ c ∈ e, isWordChar c = true)
    (h : entryOccursAt e t i = true)
    (hij : i < j) (hje : j ≤ i + e.length)
    {e' : List Char} (hne' : e' ≠ []) (he' : ∀ c ∈ e', isWordChar c = true) :
    entryOccursAt e' t j = false := by
  unfold entryOccursAt
  cases hm' : ciMatchesAt e' t j with
  | false => simp
  | true =>
    have hlen' : 0 < e'.length := List.length_pos.mpr hne'
    have hwj : wordAt t j = true := by
      have := wordAt_of_ciMatch he' hm' hlen'
      rwa [Nat.add_zero] at this
    have hwj1 : wordAt t (j - 1) = true := by
      have hk : j - 1 - i < e.length := by omega
      have := wordAt_of_ciMatch he (entryOccursAt_parts h).1 hk
      have harith : i + (j - 1 - i) = j - 1 := by omega
      rwa [harith] at this
    have hb : boundaryAt t j = false := by
      unfold boundaryAt
      rw [if_neg (by omega : ¬ j = 0), hwj1, hwj]
      rfl
    rw [hb]
    simp
theorem matchLenAt_some {D : List (List Char)} {t : List Char} {i L : Nat}
    (h : matchLenAt D t i = some L) :
    ∃ e ∈ D, e.length = L ∧ entryOccursAt e t i = true := by
  induction D with
  | nil => simp [matchLenAt] at h
  | cons a as ih =>
    rw [matchLenAt, List.findSome?_cons] at h
    cases ho : entryOccursAt a t i
    · rw [ho] at h
      simp only [Bool.false_eq_true, if_false] at h
      obtain ⟨e, hmem, hl, hocc⟩ := ih h
      exact ⟨e, List.mem_cons_of_mem _ hmem, hl, hocc⟩
    · rw [ho] at h
      simp only [if_true] at h
      injection h with h
      exact ⟨a, List.mem_cons_self _ _, h, ho⟩

theorem matchLenAt_none {D : List (List Char)} {t : List Char} {i : Nat} :
    matchLenAt D t i = none ↔ ∀ e ∈ D, entryOccursAt e t i = false := by
  induction D with
  | nil => simp [matchLenAt]
  | cons a as ih =>
    rw [matchLenAt, List.findSome?_cons]
    cases ho : entryOccursAt a t i
    · simp only [Bool.false_eq_true, if_false]
      constructor
      · intro h e hmem
        rcases List.mem_cons.mp hmem with rfl | hmem
        · exact ho
        · exact (ih.mp h) e hmem
      · intro h
        exact ih.mpr (fun e hmem => h e (List.mem_cons_of_mem _ hmem))
    · simp only [if_true]
      constructor
      · intro h; cases h
      · intro h
        exfalso
        have hcontra := h a (List.mem_cons_self _ _)
        rw [ho] at hcontra
        exact Bool.noConfusion hcontra

theorem scan_sound {D : List (List Char)} {t : List Char} :
    ∀ (fuel i j L : Nat), (j, L) ∈ scanFrom D t i fuel →
      i ≤ j ∧ matchLenAt D t j = some L := by
  intro fuel
  induction fuel with
  | zero => intro i j L h; simp [scanFrom] at h
  | succ fuel ih =>
    intro i j L h
    rw [scanFrom] at h
    by_cases hlen : t.length < i
    · rw [if_pos hlen] at h; simp at h
    · rw [if_neg hlen] at h
      cases hm : matchLenAt D t i with
      | none =>
        rw [hm] at h
        have h' : (j, L) ∈ scanFrom D t (i + 1) fuel := h
        obtain ⟨h1, h2⟩ := ih _ _ _ h'
        exact ⟨by omega, h2⟩
      | some M =>
        rw [hm] at h
        cases M with
        | zero =>
          have h' : (j, L) ∈ (i, 0) :: scanFrom D t (i + 1) fuel := h
          rcases List.mem_cons.mp h' with heq | htail
          · have h1 : j = i := congrArg Prod.fst heq
            have h2 : L = 0 := congrArg Prod.snd heq
            subst h1; subst h2
            exact ⟨Nat.le_refl j, hm⟩
          · obtain ⟨h1, h2⟩ := ih _ _ _ htail
            exact ⟨by omega, h2⟩
        | succ M =>
          have h' : (j, L) ∈ (i, M + 1) :: scanFrom D t (i + M + 1) fuel := h
          rcases List.mem_cons.mp h' with heq | htail
          · have h1 : j = i := congrArg Prod.fst heq
            have h2 : L = M + 1 := congrArg Prod.snd heq
            subst h1; subst h2
            exact ⟨Nat.le_refl j, hm⟩
          · obtain ⟨h1, h2⟩ := ih _ _ _ htail
            exact ⟨by omega, h2⟩

theorem scan_complete {D : List (List Char)} {t : List Char}
    (hD : ∀ e ∈ D, e ≠ [] ∧ ∀ c ∈ e, isWordChar c = true) :
    ∀ (fuel i j L : Nat), i ≤ j → t.length + 1 ≤ i + fuel →
      (∃ e ∈ D, e.length = L ∧ entryOccursAt e t j = true) →
      (j, L) ∈ scanFrom D t i fuel := by
  intro fuel
  induction fuel with
  | zero =>
    intro i j L hij hfuel hocc
    exfalso
    obtain ⟨e, hmem, hlenE, hoccE⟩ := hocc
    have hne := (hD e hmem).1
    have hle := ciMatchesAt_le (entryOccursAt_parts hoccE).1
    have hpos : 0 < e.length := List.length_pos.mpr hne
    omega
  | succ fuel ih =>
    intro i j L hij hfuel hocc
    rw [scanFrom]
    by_cases hlen : t.length < i
    · exfalso
      obtain ⟨e, hmem, hlenE, hoccE⟩ := hocc
      have hne := (hD e hmem).1
      have hle := ciMatchesAt_le (entryOccursAt_parts hoccE).1
      have hpos : 0 < e.length := List.length_pos.mpr hne
      omega
    · rw [if_neg hlen]
      cases hm : matchLenAt D t i with
      | none =>
        have hne : j ≠ i := by
          intro heq
          subst heq
          obtain ⟨e, hmem, hlenE, hoccE⟩ := hocc
          have hfalse := matchLenAt_none.mp hm e hmem
          rw [hoccE] at hfalse
          exact Bool.noConfusion hfalse
        exact ih (i + 1) j L (by omega) (by omega) hocc
      | some M =>
        obtain ⟨e₁, hmem₁, hlen₁, hocc₁⟩ := matchLenAt_some hm
        have hD₁ := hD e₁ hmem₁
        cases M with
        | zero =>
          exfalso
          exact hD₁.1 (List.length_eq_zero.mp hlen₁)
        | succ M =>
          by_cases hji : j = i
          · subst hji
            obtain ⟨e, hmem, hlenE, hoccE⟩ := hocc
            have hL : L = M + 1 := by
              rw [← hlenE, ← hlen₁]
              exact occ_length_unique (hD e hmem).1 (hD e hmem).2 hD₁.1 hD₁.2 hoccE hocc₁
            subst hL
            show (j, M + 1) ∈ (j, M + 1) :: scanFrom D t (j + M + 1) fuel
            exact List.mem_cons_self _ _
          · have hjgt : i < j := by omega
            have hfar : i + (M + 1) + 1 ≤ j := by
              by_contra hcon
              push_neg at hcon
              obtain ⟨e, hmem, hlenE, hoccE⟩ := hocc
              have hje : j ≤ i + e₁.length := by rw [hlen₁]; omega
              have hcontra :=
                no_occ_inside hD₁.1 hD₁.2 hocc₁ hjgt hje (hD e hmem).1 (hD e hmem).2
              rw [hoccE] at hcontra
              exact Bool.noConfusion hcontra
            show (j, L) ∈ (i, M + 1) :: scanFrom D t (i + M + 1) fuel
            exact List.mem_cons_of_mem _ (ih (i + M + 1) j L (by omega) (by omega) hocc)

theorem findMatches_iff_wholeWord (D : List (List Char))
    (hD : ∀ e ∈ D, e ≠ [] ∧ ∀ c ∈ e, isWordChar c = true)
    (t : List Char) (i L : Nat) :
    (i, L) ∈ findMatches D t ↔ ∃ e ∈ D, e.length = L ∧ wholeWordOccursAt e t i = true := by
  unfold findMatches
  constructor
  · intro h
    obtain ⟨_, hm⟩ := scan_sound _ _ _ _ h
    obtain ⟨e, hmem, hlenE, hocc⟩ := matchLenAt_some hm
    refine ⟨e, hmem, hlenE, ?_⟩
    rw [← entryOccurs_eq_wholeWord (hD e hmem).1 (hD e hmem).2]
    exact hocc
  · intro h
    obtain ⟨e, hmem, hlenE, hocc⟩ := h
    have hocc' : entryOccursAt e t i = true := by
      rw [entryOccurs_eq_wholeWord (hD e hmem).1 (hD e hmem).2]
      exact hocc
    exact scan_complete hD (t.length + 1) 0 i L (Nat.zero_le i) (by omega) ⟨e, hmem, hlenE, hocc'⟩

/-- C1 (amended): for every dictionary whose entries are non-empty strings
of word characters (ASCII letters, digits, underscore; in particular free
of regex metacharacters) and every text, the compiled matcher matches
exactly the occurrences of dictionary entries as whole words anchored by
non-word-character boundaries, case-insensitively. -/
theorem findMatches_exact (D : List (List Char))
    (hD : ∀ e ∈ D, e ≠ [] ∧ ∀ c ∈ e, isWordChar c = true)
    (t : List Char) (i L : Nat) :
    (i, L) ∈ findMatches D t ↔ ∃ e ∈ D, e.length = L ∧ wholeWordOccursAt e t i = true :=
  findMatches_iff_wholeWord D hD t i L

example : findMatches [['A','n','d','e','r','s']] "Anderson".data = [] := by decide
example : findMatches [['A','n','d','e','r','s']] "Anders works here".data = [(0, 6)] := by decide
example : replaceMatches [['B','o','b']] "hi Bob!".data (fun m => '<' :: m ++ ['>'])
    = "hi <Bob>!".data := by decide

theorem occ_before_not_word {e t : List Char} {i : Nat}
    (hne : e ≠ []) (he : ∀ c ∈ e, isWordChar c = true)
    (h : entryOccursAt e t i = true) (hi : i ≠ 0) : wordAt t (i - 1) = false := by
  obtain ⟨hm, hb1, _⟩ := entryOccursAt_parts h
  have hw : wordAt t i = true := by
    have hk := wordAt_of_ciMatch he hm (List.length_pos.mpr hne)
    rwa [Nat.add_zero] at hk
  unfold boundaryAt at hb1
  rw [if_neg hi, hw] at hb1
  cases hval : wordAt t (i - 1)
  · rfl
  · rw [hval] at hb1; simp at hb1

theorem no_occ_in_gap (D : List (List Char))
    (hD : ∀ e ∈ D, e ≠ [] ∧ ∀ c ∈ e, isWordChar c = true)
    (t : List Char) (pos q : Nat) (hq : q ≤ t.length)
    (hleft : pos = 0 ∨ wordAt t pos = false)
    (hright : q = t.length ∨ q ≤ pos ∨ wordAt t (q - 1) = false)
    (hnomid : ∀ u, pos ≤ u → u < q → matchLenAt D t u = none) :
    findMatches D ((t.drop pos).take (q - pos)) = [] := by
  by_contra hne
  obtain ⟨jL, hmem⟩ := List.exists_mem_of_ne_nil _ hne
  obtain ⟨j, L⟩ := jL
  obtain ⟨e, heD, hlenE, hocc⟩ := (findMatches_iff_wholeWord D hD _ j L).mp hmem
  obtain ⟨hneE, hword⟩ := hD e heD
  have hEpos : 0 < e.length := List.length_pos.mpr hneE
  unfold wholeWordOccursAt at hocc
  simp only [Bool.and_eq_true, Bool.or_eq_true, decide_eq_true_eq, Bool.not_eq_true'] at hocc
  obtain ⟨⟨hcm, hlead⟩, htrail⟩ := hocc
  have hglen : ((t.drop pos).take (q - pos)).length = q - pos := by
    rw [List.length_take, List.length_drop]
    omega
  have hje : e.length ≤ ((t.drop pos).take (q - pos)).length - j := ciMatchesAt_le hcm
  rw [hglen] at hje
  have hjq : j + e.length ≤ q - pos := by omega
  have hqpos : pos < q := by omega
  have hseg : (((t.drop pos).take (q - pos)).drop j).take e.length
      = (t.drop (pos + j)).take e.length := by
    rw [List.drop_take, List.drop_drop, List.take_take]
    have hmin : min e.length (q - pos - j) = e.length := Nat.min_eq_left (by omega)
    rw [hmin]
  have hcmT : ciMatchesAt e t (pos + j) = true := by
    unfold ciMatchesAt at hcm ⊢
    rwa [hseg] at hcm
  have hwordT : ∀ k, k < e.length → wordAt t (pos + j + k) = true :=
    fun k hk => wordAt_of_ciMatch hword hcmT hk
  have hwg : ∀ k, k < q - pos →
      wordAt ((t.drop pos).take (q - pos)) k = wordAt t (pos + k) := by
    intro k hk
    unfold wordAt
    rw [List.get?_take hk, List.get?_drop]
  have hleadT : pos + j = 0 ∨ wordAt t (pos + j - 1) = false := by
    rcases hlead with hj0 | hjw
    · subst hj0
      rcases hleft with hp0 | hpw
      · subst hp0; exact Or.inl rfl
      · exfalso
        have h0 := hwordT 0 hEpos
        simp only [Nat.add_zero] at h0
        rw [h0] at hpw
        exact Bool.noConfusion hpw
    · by_cases hj0 : j = 0
      · subst hj0
        exfalso
        have h0 : wordAt ((t.drop pos).take (q - pos)) 0 = true := by
          rw [hwg 0 (by omega), Nat.add_zero]
          have hk := hwordT 0 hEpos
          simpa using hk
        simp only [Nat.zero_sub] at hjw
        rw [h0] at hjw
        exact Bool.noConfusion hjw
      · right
        have hj1 : j - 1 < q - pos := by omega
        have hk := hwg (j - 1) hj1
        rw [hk] at hjw
        have harith : pos + (j - 1) = pos + j - 1 := by omega
        rwa [harith] at hjw
  have htrailT : pos + j + e.length = t.length ∨ wordAt t (pos + j + e.length) = false := by
    by_cases hend : j + e.length = q - pos
    · rcases hright with hq1 | hq2 | hq3
      · left; omega
      · exact absurd hq2 (by omega)
      · exfalso
        have hk := hwordT (e.length - 1) (by omega)
        have harith : pos + j + (e.length - 1) = q - 1 := by omega
        rw [harith] at hk
        rw [hk] at hq3
        exact Bool.noConfusion hq3
    · right
      have hlt : j + e.length < q - pos := by omega
      rcases htrail with ht1 | ht2
      · rw [hglen] at ht1
        exact absurd ht1 hend
      · have hk := hwg (j + e.length) hlt
        rw [hk] at ht2
        have harith : pos + (j + e.length) = pos + j + e.length := by omega
        rwa [harith] at ht2
  have hoccT : entryOccursAt e t (pos + j) = true := by
    rw [entryOccurs_eq_wholeWord hneE hword]
    unfold wholeWordOccursAt
    rw [hcmT]
    simp only [Bool.true_and, Bool.and_eq_true, Bool.or_eq_true, decide_eq_true_eq,
      Bool.not_eq_true']
    exact ⟨hleadT, htrailT⟩
  have hnone := hnomid (pos + j) (by omega) (by omega)
  have hfalse := matchLenAt_none.mp hnone e heD
  rw [hoccT] at hfalse
  exact Bool.noConfusion hfalse

theorem scan_gaps (D : List (List Char)) (t : List Char)
    (hD : ∀ e ∈ D, e ≠ [] ∧ ∀ c ∈ e, isWordChar c = true) :
    ∀ (fuel i pos : Nat), pos ≤ i → t.length + 1 ≤ i + fuel →
      (pos = 0 ∨ wordAt t pos = false) →
      (∀ u, pos ≤ u → u < i → matchLenAt D t u = none) →
      ∀ g ∈ gapsOf t pos (scanFrom D t i fuel), findMatches D g = [] := by
  intro fuel
  induction fuel with
  | zero =>
    intro i pos hpi hfuel hleft hmid g hg
    have hg' : g ∈ [t.drop pos] := hg
    rw [List.mem_singleton.mp hg']
    have htake : (t.drop pos).take (t.length - pos) = t.drop pos :=
      List.take_of_length_le (by rw [List.length_drop])
    rw [← htake]
    exact no_occ_in_gap D hD t pos t.length (Nat.le_refl _) hleft (Or.inl rfl)
      (fun u hu hu2 => hmid u hu (by omega))
  | succ fuel ih =>
    intro i pos hpi hfuel hleft hmid g hg
    rw [scanFrom] at hg
    by_cases hlen : t.length < i
    · rw [if_pos hlen] at hg
      have hg' : g ∈ [t.drop pos] := hg
      rw [List.mem_singleton.mp hg']
      have htake : (t.drop pos).take (t.length - pos) = t.drop pos :=
        List.take_of_length_le (by rw [List.length_drop])
      rw [← htake]
      exact no_occ_in_gap D hD t pos t.length (Nat.le_refl _) hleft (Or.inl rfl)
        (fun u hu hu2 => hmid u hu (by omega))
    · rw [if_neg hlen] at hg
      cases hm : matchLenAt D t i with
      | none =>
        rw [hm] at hg
        refine ih (i + 1) pos (by omega) (by omega) hleft ?_ g hg
        intro u hu hu2
        rcases Nat.lt_or_ge u i with hcase | hcase
        · exact hmid u hu hcase
        · have hui : u = i := by omega
          rw [hui]
          exact hm
      | some M =>
        rw [hm] at hg
        obtain ⟨e₁, hmem₁, hlen₁, hocc₁⟩ := matchLenAt_some hm
        obtain ⟨hne₁, hword₁⟩ := hD e₁ hmem₁
        cases M with
        | zero => exact absurd (List.length_eq_zero.mp hlen₁) hne₁
        | succ M =>
          have hg' : g ∈ (t.drop pos).take (i - pos) ::
              gapsOf t (i + (M + 1)) (scanFrom D t (i + M + 1) fuel) := hg
          rcases List.mem_cons.mp hg' with hgeq | hgtail
          · rw [hgeq]
            refine no_occ_in_gap D hD t pos i (by omega) hleft ?_
              (fun u hu hu2 => hmid u hu hu2)
            by_cases hi0 : i = 0
            · right; left; omega
            · right; right
              exact occ_before_not_word hne₁ hword₁ hocc₁ hi0
          · have hnext : wordAt t (i + (M + 1)) = false := by
              have hk := occ_after_not_word hne₁ hword₁ hocc₁
              rwa [hlen₁] at hk
            exact ih (i + M + 1) (i + (M + 1)) (by omega) (by omega)
              (Or.inr hnext) (fun u hu hu2 => absurd hu2 (by omega)) g hgtail

theorem findMatches_gaps_unmatched (D : List (List Char))
    (hD : ∀ e ∈ D, e ≠ [] ∧ ∀ c ∈ e, isWordChar c = true) (t : List Char) :
    ∀ g ∈ gapsOf t 0 (findMatches D t), findMatches D g = [] := by
  intro g hg
  exact scan_gaps D t hD (t.length + 1) 0 0 (Nat.le_refl 0) (by omega) (Or.inl rfl)
    (fun u hu hu2 => absurd hu2 (by omega)) g hg

/-- Counterexample to C1 as stated: the dictionary entry hyphen-x contains
no regex metacharacter, yet the compiled matcher matches it in the text
a-hyphen-x at position 1, although the preceding character a is a word
character: the match is not a whole-word occurrence anchored by
non-word-character boundaries (the boundary assertion also fires between a
word character and a non-word entry character). -/
theorem findMatches_not_wholeWord_counterexample :
    findMatches [['-', 'x']] "a-x".data = [(1, 2)] ∧
      wholeWordOccursAt ['-', 'x'] "a-x".data 1 = false := by
  constructor
  · rfl
  · rfl

/-- Witness for C1 (amended): the dictionary with the single entry Alice
satisfies the hypothesis, and the matcher does match the token AlIcE at
position 0 as a whole-word occurrence. -/
theorem findMatches_exact_witness :
    (∀ e ∈ [['A', 'l', 'i', 'c', 'e']], e ≠ [] ∧ ∀ c ∈ e, isWordChar c = true) ∧
      (0, 5) ∈ findMatches [['A', 'l', 'i', 'c', 'e']] "AlIcE works".data :=
  ⟨by decide,
    (findMatches_exact [['A', 'l', 'i', 'c', 'e']] (by decide) "AlIcE works".data 0 5).mpr
      (by decide)⟩

/-- C2 fails on the code (code bug): for the text node whose contents are
the characters of the entity notation for an ampersand followed by
space-Bob, the censor builds the replacement markup without escaping the
original text and assigns it to innerHTML, so the parsed fragment spliced
into the document carries the decoded text ampersand-space instead of the
original six-character run: the non-matched portion is not preserved
byte-for-byte. -/
theorem censor_entity_decoded_bug :
    censorPass [['B', 'o', 'b']] (DNode.elem "body" [] [DNode.text "&amp; Bob".data]) =
      DNode.elem "body" []
        [DNode.text "& ".data,
          DNode.elem "span" [SPOILER_CLASS] [DNode.text "Bob".data]] ∧
      "& ".data ≠ "&amp; ".data := by
  constructor
  · rfl
  · decide

/-- Counterexample to C6: a line consisting only of a single space is kept
by the filter that runs before trimming (a non-empty string is truthy) and
is then trimmed to the empty string, so the empty entry is handed to the
match engine. -/
theorem loadNames_empty_entry_counterexample :
    loadNames " \nAlice".data = [[], "Alice".data] ∧ [] ∈ loadNames " \nAlice".data := by
  constructor
  · rfl
  · decide

theorem dropWhile_idem {p : Char → Bool} : ∀ l : List Char,
    (l.dropWhile p).dropWhile p = l.dropWhile p := by
  intro l
  induction l with
  | nil => rfl
  | cons c cs ih =>
    by_cases hc : p c
    · rw [List.dropWhile_cons_of_pos hc]; exact ih
    · rw [List.dropWhile_cons_of_neg hc, List.dropWhile_cons_of_neg hc]

theorem jsTrim_ne_nil {l : List Char} (h : ∃ c ∈ l, jsIsSpace c = false) :
    jsTrim l ≠ [] := by
  obtain ⟨c, hc, hcs⟩ := h
  intro hnil
  unfold jsTrim at hnil
  rw [List.reverse_eq_nil_iff, List.dropWhile_eq_nil_iff] at hnil
  have hcA : c ∈ l.dropWhile jsIsSpace := by
    rcases List.mem_append.mp
        ((List.takeWhile_append_dropWhile jsIsSpace l) ▸ hc) with hin | hin
    · exact absurd (List.mem_takeWhile_imp hin) (by simp [hcs])
    · exact hin
  have := hnil c (List.mem_reverse.mpr hcA)
  rw [hcs] at this
  exact Bool.noConfusion this

/-- C6 (amended): the loader splits the fetched text on line boundaries,
drops the lines that are empty before trimming, and then trims each
remaining entry, so every entry handed to the match engine is the
whitespace-trim of a non-empty line; an entry is itself non-empty provided
its line contained a non-whitespace character — a line consisting only of
whitespace survives the filter and yields an empty entry. -/
theorem loadNames_entries (text e : List Char) (h : e ∈ loadNames text) :
    ∃ l ∈ splitLines text, l ≠ [] ∧ e = jsTrim l ∧
      ((∃ c ∈ l, jsIsSpace c = false) → e ≠ []) := by
  unfold loadNames at h
  obtain ⟨l, hl, rfl⟩ := List.mem_map.mp h
  obtain ⟨hmem, hne⟩ := List.mem_filter.mp hl
  refine ⟨l, hmem, ?_, rfl, fun hex => jsTrim_ne_nil hex⟩
  intro hnil
  subst hnil
  simp at hne

/-- Witness for C6 (amended): the entry Bob of the two-line input
space-Bob-space-newline comes from the non-empty first line, equals its
trim, and is non-empty. -/
theorem loadNames_entries_witness :
    "Bob".data ∈ loadNames " Bob \n".data ∧
      ∃ l ∈ splitLines " Bob \n".data, l ≠ [] ∧ "Bob".data = jsTrim l ∧
        ((∃ c ∈ l, jsIsSpace c = false) → "Bob".data ≠ []) :=
  ⟨by decide, loadNames_entries " Bob \n".data "Bob".data (by decide)⟩

/-- Counterexample to C3: on a body with two matching text nodes, the
second censor pass wraps additional text.  Replacing the walker's current
node detaches it and makes the following nextNode() call return null, so
one pass replaces at most one text node: the first pass wraps only the
first Alice (one spoiler element) and the second pass wraps the second one
(two spoiler elements) — running the pass twice is not idempotent. -/
theorem censorPass_not_idempotent :
    spoilerCount (censorPass [['A', 'l', 'i', 'c', 'e']]
        (DNode.elem "body" [] [DNode.text "Alice".data, DNode.text "Alice".data])) = 1 ∧
      spoilerCount (censorPass [['A', 'l', 'i', 'c', 'e']] (censorPass [['A', 'l', 'i', 'c', 'e']]
        (DNode.elem "body" [] [DNode.text "Alice".data, DNode.text "Alice".data]))) = 2 :=
  ⟨rfl, rfl⟩

theorem spoiler_parent_rejected (D : List (List Char)) (ptag : String)
    (pcls : List String) (s : List Char) (h : SPOILER_CLASS ∈ pcls) :
    eligible ptag pcls D s = false ∧ censorNode D ptag pcls (DNode.text s) = none := by
  have hc : pcls.contains SPOILER_CLASS = true := by
    simpa using h
  have he : eligible ptag pcls D s = false := by
    unfold eligible
    rw [hc]
    simp
  refine ⟨he, ?_⟩
  simp only [censorNode]
  rw [he]
  rfl

/-- C3 (amended): the eligibility filter rejects every text node whose
parent element carries the spoiler marker class, so a censor pass never
replaces text inside an existing spoiler element and already-wrapped text
is never wrapped a second time without first being revealed; moreover, for
word-character dictionaries, the non-matched portions that the replacement
leaves outside the spoiler spans contain no further match, so later passes
cannot wrap them either.  Running the pass twice is nevertheless not
idempotent in general, because one pass replaces at most the first eligible
text node, so a second pass may wrap other, previously unvisited matching
text nodes. -/
theorem censor_no_double_wrap (D : List (List Char))
    (hD : ∀ e ∈ D, e ≠ [] ∧ ∀ c ∈ e, isWordChar c = true) :
    (∀ (ptag : String) (pcls : List String) (s : List Char), SPOILER_CLASS ∈ pcls →
        eligible ptag pcls D s = false ∧ censorNode D ptag pcls (DNode.text s) = none) ∧
      ∀ t : List Char, ∀ g ∈ gapsOf t 0 (findMatches D t), findMatches D g = [] :=
  ⟨fun ptag pcls s h => spoiler_parent_rejected D ptag pcls s h,
    fun t => findMatches_gaps_unmatched D hD t⟩

/-- Witness for C3 (amended): with the single dictionary entry Alice, a
text node under a spoiler-class parent is rejected by the filter although
its text matches, and the gap left before the wrapped Alice in the text
(x space Alice) contains no further match. -/
theorem censor_no_double_wrap_witness :
    (∀ e ∈ [['A', 'l', 'i', 'c', 'e']], e ≠ [] ∧ ∀ c ∈ e, isWordChar c = true) ∧
      SPOILER_CLASS ∈ [SPOILER_CLASS] ∧
      eligible "span" [SPOILER_CLASS] [['A', 'l', 'i', 'c', 'e']] "Alice".data = false ∧
      "x ".data ∈ gapsOf "x Alice".data 0
        (findMatches [['A', 'l', 'i', 'c', 'e']] "x Alice".data) ∧
      findMatches [['A', 'l', 'i', 'c', 'e']] "x ".data = [] := by
  have h := censor_no_double_wrap [['A', 'l', 'i', 'c', 'e']] (by decide)
  refine ⟨by decide, List.mem_singleton.mpr rfl, ?_, by decide, ?_⟩
  · exact (h.1 "span" [SPOILER_CLASS] "Alice".data (List.mem_singleton.mpr rfl)).1
  · exact h.2 "x Alice".data "x ".data (by decide)

theorem censor_none_of_no_match (D : List (List Char)) : ∀ n : Nat,
    (∀ nd : DNode, sizeOf nd ≤ n → ∀ (ptag : String) (pcls : List String),
        (∀ s ∈ textNodes nd, findMatches D s = []) → censorNode D ptag pcls nd = none) ∧
    (∀ l : List DNode, sizeOf l ≤ n → ∀ (ptag : String) (pcls : List String),
        (∀ s ∈ textNodesList l, findMatches D s = []) → censorForest D ptag pcls l = none) := by
  intro n
  induction n with
  | zero =>
    constructor
    · intro nd hsz
      exfalso
      cases nd <;> simp_all
    · intro l hsz
      exfalso
      cases l <;> simp_all
  | succ n ih =>
    constructor
    · intro nd hsz ptag pcls h
      cases nd with
      | text s =>
        have hm : findMatches D s = [] := h s (by simp [textNodes])
        simp only [censorNode]
        rw [if_neg]
        intro hcontra
        unfold eligible at hcontra
        rw [hm] at hcontra
        simp at hcontra
      | elem tag cls ch =>
        have hch : sizeOf ch ≤ n := by
          simp only [DNode.elem.sizeOf_spec] at hsz
          omega
        have hrec := ih.2 ch hch tag cls
          (fun s hs => h s (by simpa [textNodes] using hs))
        simp only [censorNode, hrec]
        rfl
    · intro l hsz ptag pcls h
      cases l with
      | nil => rfl
      | cons nd ns =>
        have hnd : sizeOf nd ≤ n := by
          simp only [List.cons.sizeOf_spec] at hsz
          omega
        have hns : sizeOf ns ≤ n := by
          simp only [List.cons.sizeOf_spec] at hsz
          omega
        have h1 := ih.1 nd hnd ptag pcls
          (fun s hs => h s (by simp only [textNodesList, List.mem_append]; exact Or.inl hs))
        have h2 := ih.2 ns hns ptag pcls
          (fun s hs => h s (by simp only [textNodesList, List.mem_append]; exact Or.inr hs))
        simp only [censorForest, h1, h2]
        rfl

/-- C5: if no text node reachable in the traversal contains any match for
the dictionary, a censor pass leaves the DOM completely unmodified — no
node is recreated — and performs zero node replacements. -/
theorem censorPass_noop_of_no_match (D : List (List Char)) (body : DNode)
    (h : ∀ s ∈ textNodes body, findMatches D s = []) :
    censorPass D body = body ∧ replacementsMade D body = 0 := by
  cases body with
  | text s => exact ⟨rfl, rfl⟩
  | elem tag cls ch =>
    have hn : censorForest D tag cls ch = none :=
      (censor_none_of_no_match D (sizeOf ch)).2 ch (Nat.le_refl _) tag cls
        (fun s hs => h s (by simpa [textNodes] using hs))
    constructor
    · simp only [censorPass, hn]
    · simp only [replacementsMade, hn]
      rfl

/-- Witness for C5: a body whose single text node contains no match is
returned unchanged by the censor pass. -/
theorem censorPass_noop_witness :
    (∀ s ∈ textNodes (DNode.elem "body" [] [DNode.text "hello world".data]),
        findMatches [['A', 'l', 'i', 'c', 'e']] s = []) ∧
      censorPass [['A', 'l', 'i', 'c', 'e']]
          (DNode.elem "body" [] [DNode.text "hello world".data]) =
        DNode.elem "body" [] [DNode.text "hello world".data] :=
  ⟨by decide,
    (censorPass_noop_of_no_match [['A', 'l', 'i', 'c', 'e']]
        (DNode.elem "body" [] [DNode.text "hello world".data]) (by decide)).1⟩

/-- C7: whenever the matcher is unset — the fetch failed or the parsed
dictionary was empty — or the enabled flag is false, a censorNames call
performs no DOM modification whatsoever: the body is returned unchanged,
so mutation notifications arriving before the matcher is ready are safely
ignored. -/
theorem censorNames_noop_when_unset_or_disabled (enabled : Bool)
    (fetched : Option (List Char)) (body : DNode)
    (h : enabled = false ∨ fetched = none ∨ loadNames (fetched.getD []) = []) :
    censorNames enabled (initializeRegex fetched) body = body := by
  rcases h with h | h | h
  · subst h
    rfl
  · subst h
    cases enabled <;> rfl
  · have hr : initializeRegex fetched = none := by
      cases fetched with
      | none => rfl
      | some text =>
        have ht : loadNames text = [] := h
        simp [initializeRegex, ht]
    rw [hr]
    cases enabled <;> rfl

/-- Witness for C7: with the flag off, the censor leaves a matching body
unchanged even though the dictionary loaded successfully. -/
theorem censorNames_noop_witness :
    ((false : Bool) = false ∨ (some "Alice".data : Option (List Char)) = none ∨
        loadNames ((some "Alice".data : Option (List Char)).getD []) = []) ∧
      censorNames false (initializeRegex (some "Alice".data))
          (DNode.elem "body" [] [DNode.text "Alice".data]) =
        DNode.elem "body" [] [DNode.text "Alice".data] :=
  ⟨Or.inl rfl,
    censorNames_noop_when_unset_or_disabled false (some "Alice".data)
      (DNode.elem "body" [] [DNode.text "Alice".data]) (Or.inl rfl)⟩

/-- C8: on a change notification carrying the enabled key, the transition
to enabled sets the flag and runs exactly one censor pass with no reload
request, and the transition to disabled sets the flag and requests exactly
one full page reload with no censor pass. -/
theorem onStorageChanged_actions (st : Bool) :
    onStorageChanged st (some true) = (true, [Action.censor]) ∧
      onStorageChanged st (some false) = (false, [Action.reload]) :=
  ⟨rfl, rfl⟩

theorem debounceRunAux_chain : ∀ (ts : List Nat) (prev : Nat),
    List.Chain' (fun a b => a ≤ b ∧ b < a + 300) (prev :: ts) →
    debounceRunAux 300 (some (prev + 300)) ts = [ts.getLastD prev + 300] := by
  intro ts
  induction ts with
  | nil => intro prev _; rfl
  | cons u us ih =>
    intro prev h
    obtain ⟨⟨_, hlt⟩, htail⟩ := List.chain'_cons.mp h
    simp only [debounceRunAux, debounceStep]
    rw [if_neg (by omega : ¬ prev + 300 ≤ u)]
    simp only [List.nil_append, List.getLastD_cons]
    exact ih u htail

/-- C9: for a finite burst of mutation notifications (nondecreasing times,
each arriving strictly within the 300 ms quiescence window of the previous
one), exactly one censor pass fires, exactly 300 ms after the last
notification of the burst — hence no earlier; each new trigger cancels the
previously pending scheduled pass (the clearTimeout step of the model). -/
theorem debounce_collapses_burst (t0 : Nat) (ts : List Nat)
    (h : List.Chain' (fun a b => a ≤ b ∧ b < a + 300) (t0 :: ts)) :
    debounceRun 300 (t0 :: ts) = [ts.getLastD t0 + 300] :=
  debounceRunAux_chain ts t0 h

/-- Witness for C9: five notifications 50 ms apart produce exactly one
firing, at 300 ms after the last one. -/
theorem debounce_collapses_burst_witness :
    List.Chain' (fun a b => a ≤ b ∧ b < a + 300) [0, 50, 100, 150, 200] ∧
      debounceRun 300 [0, 50, 100, 150, 200] = [500] := by
  have hchain : List.Chain' (fun a b => a ≤ b ∧ b < a + 300) [0, 50, 100, 150, 200] := by
    simp only [List.chain'_cons, List.chain'_singleton, and_true]
    omega
  exact ⟨hchain, debounce_collapses_burst 0 [50, 100, 150, 200] hchain⟩

/-- Counterexample to C10: running the observer setup twice leaves two live
observer registrations; only the stored window handle is overwritten (the
previous observer is never disconnected), so re-running initialization does
leave two overlapping observers active. -/
theorem two_observers_after_rerun :
    (observeDOMChanges (observeDOMChanges initialObsState)).active = 2 ∧
      (observeDOMChanges (observeDOMChanges initialObsState)).handle = some 1 :=
  ⟨rfl, rfl⟩

/-- C10 (amended): within one run of the content script the observer setup
is reached at most once (only from the single fetch success path), so at
most one registration is live; but each call of the setup does register one
further live observer while only overwriting the stored handle. -/
theorem observers_after_init (fetched : Option (List Char)) :
    (initObservers fetched).active ≤ 1 ∧
      ∀ st : ObsState, (observeDOMChanges st).active = st.active + 1 := by
  refine ⟨?_, fun st => rfl⟩
  unfold initObservers
  cases initializeRegex fetched
  · exact Nat.zero_le 1
  · exact Nat.le_refl 1

end NameBlocker
